import Mathlib

/-!
Verification of the bencode / metainfo / tracker core of a BitTorrent client
(`src/main.rs`).

Byte buffers are modelled as `List Nat` (each element a byte value).  The
hand-written decoder (`decode_bencoded_value` and friends) produces
`serde_json::Value` results, modelled by `JVal`; a Rust `String` is modelled
by the list of bytes of its UTF-8 encoding.  Rust panics (calls to `unwrap`
on `None`, out-of-range slicing) are modelled by the distinguished outcome
`DRes.panic`, separate from `DRes.err` which models returning an
`anyhow::Error` value.
-/

/-- `true` iff the byte is an ASCII decimal digit, as `u8::is_ascii_digit`. -/
def isDigit (c : Nat) : Bool := 48 ≤ c && c ≤ 57

/-- Value of a big-endian list of ASCII digit bytes, e.g. `[52, 50] ↦ 42`. -/
def digitsVal (s : List Nat) : Nat := s.foldl (fun a d => 10 * a + (d - 48)) 0

/-- Little-endian decimal digits of `n` (as ASCII bytes), with `fuel ≥ n`
recursion bound; the bound is only a termination device. -/
def natDigitsGo : Nat → Nat → List Nat
  | 0, _ => []
  | f + 1, n => if n = 0 then [] else (n % 10 + 48) :: natDigitsGo f (n / 10)

/-- ASCII decimal representation of a natural number, as Rust `to_string`
produces it (`0 ↦ "0"`, no leading zeros otherwise). -/
def natDigits (n : Nat) : List Nat :=
  if n = 0 then [48] else (natDigitsGo n n).reverse

/-- ASCII decimal representation of a signed integer (`-` is byte 45). -/
def intDigits (n : Int) : List Nat :=
  if n < 0 then 45 :: natDigits n.natAbs else natDigits n.toNat

/-- Rust `str::parse::<usize>` on a list of bytes: an optional `+` sign,
then one or more decimal digits, value at most `usize::MAX = 2^64 - 1`. -/
def parseUsize (s : List Nat) : Option Nat :=
  let body := if s.head? = some 43 then s.drop 1 else s
  if !body.isEmpty && body.all isDigit then
    if digitsVal body < 18446744073709551616 then some (digitsVal body) else none
  else none

/-- Rust `str::parse::<i64>` on a list of bytes: optional `+`/`-` sign, then
one or more decimal digits, result within the signed 64-bit range. -/
def parseI64 (s : List Nat) : Option Int :=
  if s.head? = some 43 then
    if !(s.drop 1).isEmpty && (s.drop 1).all isDigit &&
        digitsVal (s.drop 1) ≤ 9223372036854775807 then
      some (digitsVal (s.drop 1) : Int)
    else none
  else if s.head? = some 45 then
    if !(s.drop 1).isEmpty && (s.drop 1).all isDigit &&
        digitsVal (s.drop 1) ≤ 9223372036854775808 then
      some (-(digitsVal (s.drop 1) : Int))
    else none
  else
    if !s.isEmpty && s.all isDigit && digitsVal s ≤ 9223372036854775807 then
      some (digitsVal s : Int)
    else none

/-- `true` iff `b` is a UTF-8 continuation byte (`0x80 ≤ b ≤ 0xBF`). -/
def contB (b : Nat) : Bool := 128 ≤ b && b ≤ 191

/-- Valid range of the second byte of a 3-byte UTF-8 sequence led by `b0`. -/
def cont3ok (b0 b1 : Nat) : Bool :=
  if b0 = 224 then 160 ≤ b1 && b1 ≤ 191
  else if b0 = 237 then 128 ≤ b1 && b1 ≤ 159
  else contB b1

/-- Valid range of the second byte of a 4-byte UTF-8 sequence led by `b0`. -/
def cont4ok (b0 b1 : Nat) : Bool :=
  if b0 = 240 then 144 ≤ b1 && b1 ≤ 191
  else if b0 = 244 then 128 ≤ b1 && b1 ≤ 143
  else contB b1

/-- One step of Rust `String::from_utf8_lossy`: well-formed UTF-8 sequences
are copied verbatim, each maximal invalid subpart is replaced by the UTF-8
bytes `EF BF BD` of U+FFFD.  `fuel` is a termination device (one unit per
decoded character; `fuel ≥ length` suffices). -/
def lossyGo : Nat → List Nat → List Nat
  | 0, _ => []
  | _ + 1, [] => []
  | f + 1, b0 :: r =>
    if b0 < 128 then b0 :: lossyGo f r
    else if 194 ≤ b0 && b0 ≤ 223 then
      match r with
      | b1 :: r2 =>
        if contB b1 then b0 :: b1 :: lossyGo f r2
        else 239 :: 191 :: 189 :: lossyGo f r
      | [] => [239, 191, 189]
    else if 224 ≤ b0 && b0 ≤ 239 then
      match r with
      | b1 :: r2 =>
        if cont3ok b0 b1 then
          match r2 with
          | b2 :: r3 =>
            if contB b2 then b0 :: b1 :: b2 :: lossyGo f r3
            else 239 :: 191 :: 189 :: lossyGo f r2
          | [] => [239, 191, 189]
        else 239 :: 191 :: 189 :: lossyGo f r
      | [] => [239, 191, 189]
    else if 240 ≤ b0 && b0 ≤ 244 then
      match r with
      | b1 :: r2 =>
        if cont4ok b0 b1 then
          match r2 with
          | b2 :: r3 =>
            if contB b2 then
              match r3 with
              | b3 :: r4 =>
                if contB b3 then b0 :: b1 :: b2 :: b3 :: lossyGo f r4
                else 239 :: 191 :: 189 :: lossyGo f r3
              | [] => [239, 191, 189]
            else 239 :: 191 :: 189 :: lossyGo f r2
          | [] => [239, 191, 189]
        else 239 :: 191 :: 189 :: lossyGo f r
      | [] => [239, 191, 189]
    else 239 :: 191 :: 189 :: lossyGo f r

/-- Bytes of `String::from_utf8_lossy` applied to the byte buffer. -/
def lossyBytes (l : List Nat) : List Nat := lossyGo l.length l

/-- One step of UTF-8 validation, mirroring `lossyGo`'s case analysis. -/
def utf8Go : Nat → List Nat → Bool
  | 0, _ => true
  | _ + 1, [] => true
  | f + 1, b0 :: r =>
    if b0 < 128 then utf8Go f r
    else if 194 ≤ b0 && b0 ≤ 223 then
      match r with
      | b1 :: r2 => contB b1 && utf8Go f r2
      | [] => false
    else if 224 ≤ b0 && b0 ≤ 239 then
      match r with
      | b1 :: r2 =>
        cont3ok b0 b1 &&
          (match r2 with
           | b2 :: r3 => contB b2 && utf8Go f r3
           | [] => false)
      | [] => false
    else if 240 ≤ b0 && b0 ≤ 244 then
      match r with
      | b1 :: r2 =>
        cont4ok b0 b1 &&
          (match r2 with
           | b2 :: r3 =>
             contB b2 &&
               (match r3 with
                | b3 :: r4 => contB b3 && utf8Go f r4
                | [] => false)
           | [] => false)
      | [] => false
    else false

/-- `true` iff the bytes are well-formed UTF-8 (Rust `str::from_utf8` succeeds). -/
def utf8Valid (l : List Nat) : Bool := utf8Go l.length l

/-- Strict lexicographic byte order on keys (Rust `String` `Ord`). -/
def listLt : List Nat → List Nat → Bool
  | _, [] => false
  | [], _ :: _ => true
  | a :: as, b :: bs => if a < b then true else if a = b then listLt as bs else false

/-- Model of `serde_json::Value` as produced by the decoder: a Rust `String`
is represented by the bytes of its UTF-8 encoding. -/
inductive JVal where
  | str : List Nat → JVal
  | num : Int → JVal
  | arr : List JVal → JVal
  | obj : List (List Nat × JVal) → JVal

/-- `serde_json::Map::insert` (a `BTreeMap` keyed by `String`): the backing
association list is kept sorted by `listLt`; inserting an existing key
replaces its value in place. -/
def insertSorted (m : List (List Nat × JVal)) (k : List Nat) (v : JVal) :
    List (List Nat × JVal) :=
  match m with
  | [] => [(k, v)]
  | (k', v') :: rest =>
    if k = k' then (k, v) :: rest
    else if listLt k k' then (k, v) :: (k', v') :: rest
    else (k', v') :: insertSorted rest k v

/-- Outcome of a decoding function: `ok value remainder` models
`Ok(DecodeResult(value, rest))`, `err` models returning `Err(anyhow!(..))`
(or a `?`-propagated error), and `panic` models a process abort (a failed
`unwrap` or an out-of-bounds slice index). -/
inductive DRes where
  | ok : JVal → List Nat → DRes
  | err : DRes
  | panic : DRes

/-- `decode_string_value` from `src/main.rs`: find the first `:` (byte 58);
no colon is a syntax error; `str::from_utf8(..).unwrap()` on the length
prefix panics on invalid UTF-8; `parse::<usize>` failure is an error; the
slice `&b[colon_pos+1..end]` panics when `end` exceeds the buffer length;
otherwise the payload bytes pass through `String::from_utf8_lossy`. -/
def decode_string_value (b : List Nat) : DRes :=
  match b.findIdx? (fun c => c == 58) with
  | none => .err
  | some cp =>
    if utf8Valid (b.take cp) then
      match parseUsize (b.take cp) with
      | none => .err
      | some size =>
        if cp + 1 + size ≤ b.length then
          .ok (.str (lossyBytes ((b.drop (cp + 1)).take size))) (b.drop (cp + 1 + size))
        else .panic
    else .panic

/-- `decode_integer_value` from `src/main.rs`: find the first `e`
(byte 101); none is a syntax error; the slice `&b[1..end_pos]` panics when
`end_pos = 0`; the body passes through `from_utf8_lossy` and
`parse::<i64>`, whose failure (including 64-bit overflow) is an error. -/
def decode_integer_value (b : List Nat) : DRes :=
  match b.findIdx? (fun c => c == 101) with
  | none => .err
  | some ep =>
    if ep = 0 then .panic
    else
      match parseI64 (lossyBytes ((b.drop 1).take (ep - 1))) with
      | none => .err
      | some n => .ok (.num n) (b.drop (ep + 1))

/-- Argument of the combined recursive decoder: `val` is a call to
`decode_bencoded_value`, `items` is the `while` loop of
`decode_list_value` (accumulator `acc`), `entries` is the `while` loop of
`decode_dictionary_value` (map accumulator `m`). -/
inductive DIn where
  | val : List Nat → DIn
  | items : List Nat → List JVal → DIn
  | entries : List Nat → List (List Nat × JVal) → DIn

/-- The recursive decoder of `src/main.rs` (`decode_bencoded_value`,
`decode_list_value`, `decode_dictionary_value`), combined into one
fuel-indexed function so that recursion is structural.  Faithful details:
the dispatcher unwraps the first byte (panic on empty input); the
dictionary branch checks the last byte of the *entire* remaining buffer
against `e` before looping; the dictionary loop panics via
`key.as_str().unwrap()` on a non-string key, and via `&rest[1..]` when the
buffer runs out without a terminating `e`; the list loop reports an error
in that situation. -/
def decodeGo : Nat → DIn → DRes
  | 0, _ => .err
  | f + 1, .val b =>
    match b.head? with
    | none => .panic
    | some c =>
      if 48 ≤ c ∧ c ≤ 57 then decode_string_value b
      else if c = 105 then decode_integer_value b
      else if c = 108 then decodeGo f (.items (b.drop 1) [])
      else if c = 100 then
        match (b.drop 1).getLast? with
        | some e => if e = 101 then decodeGo f (.entries (b.drop 1) []) else .err
        | none => decodeGo f (.entries (b.drop 1) [])
      else .err
  | f + 1, .items b acc =>
    match b.head? with
    | none => .err
    | some c =>
      if c = 101 then .ok (.arr acc) (b.drop 1)
      else
        match decodeGo f (.val b) with
        | .ok v r => decodeGo f (.items r (acc ++ [v]))
        | .err => .err
        | .panic => .panic
  | f + 1, .entries b m =>
    match b.head? with
    | none => .panic
    | some c =>
      if c = 101 then .ok (.obj m) (b.drop 1)
      else
        match decodeGo f (.val b) with
        | .ok kv r1 =>
          match decodeGo f (.val r1) with
          | .ok vv r2 =>
            match kv with
            | .str s => decodeGo f (.entries r2 (insertSorted m s vv))
            | _ => .panic
          | .err => .err
          | .panic => .panic
        | .err => .err
        | .panic => .panic

/-- `decode_bencoded_value` from `src/main.rs`.  The fuel `b.length + 1`
is sufficient for every input: each recursive call operates on a strictly
shorter suffix of the buffer. -/
def decode_bencoded_value (b : List Nat) : DRes :=
  decodeGo (b.length + 1) (.val b)

/-- Abstract bencode values, used to describe well-formed encoded buffers
(spec §3: `ByteString`, `Integer`, `List`, `Dictionary` with byte-string
keys in insertion order). -/
inductive Benc where
  | bstr : List Nat → Benc
  | bint : Int → Benc
  | blist : List Benc → Benc
  | bdict : List (List Nat × Benc) → Benc

/-- Bencode encoding of a byte string: `<decimal length>:<raw bytes>`. -/
def encStr (s : List Nat) : List Nat := natDigits s.length ++ 58 :: s

mutual
/-- Canonical bencode encoding of a value (spec §4.1 wire format). -/
def encB : Benc → List Nat
  | .bstr s => encStr s
  | .bint n => 105 :: intDigits n ++ [101]
  | .blist vs => 108 :: encList vs ++ [101]
  | .bdict es => 100 :: encEntries es ++ [101]
/-- Concatenated encodings of list elements, in order. -/
def encList : List Benc → List Nat
  | [] => []
  | v :: vs => encB v ++ encList vs
/-- Concatenated encodings of dictionary entries (`key` then `value`). -/
def encEntries : List (List Nat × Benc) → List Nat
  | [] => []
  | (k, v) :: es => encStr k ++ encB v ++ encEntries es
end

mutual
/-- Well-formedness for the decoder's input ranges: string and key lengths
fit in `usize`, integers fit in `i64`. -/
def wfB : Benc → Bool
  | .bstr s => decide (s.length < 18446744073709551616)
  | .bint n => decide (-9223372036854775808 ≤ n) && decide (n < 9223372036854775808)
  | .blist vs => wfL vs
  | .bdict es => wfE es
/-- `wfB` on every element of a list. -/
def wfL : List Benc → Bool
  | [] => true
  | v :: vs => wfB v && wfL vs
/-- `wfB` on every entry value, key length in `usize` range. -/
def wfE : List (List Nat × Benc) → Bool
  | [] => true
  | (k, v) :: es => decide (k.length < 18446744073709551616) && wfB v && wfE es
end

mutual
/-- `true` iff the value contains no dictionary anywhere. -/
def dictFree : Benc → Bool
  | .bstr _ => true
  | .bint _ => true
  | .blist vs => dictFreeL vs
  | .bdict _ => false
/-- `dictFree` on every element of a list. -/
def dictFreeL : List Benc → Bool
  | [] => true
  | v :: vs => dictFree v && dictFreeL vs
end

mutual
/-- The `serde_json::Value` the decoder produces for an encoded `Benc`:
byte strings pass through `from_utf8_lossy`, dictionaries are accumulated
by `insertSorted` in entry order. -/
def jval : Benc → JVal
  | .bstr s => .str (lossyBytes s)
  | .bint n => .num n
  | .blist vs => .arr (jvalL vs)
  | .bdict es => .obj (jvalE [] es)
/-- `jval` mapped over a list. -/
def jvalL : List Benc → List JVal
  | [] => []
  | v :: vs => jval v :: jvalL vs
/-- Fold of `insertSorted` over dictionary entries, from accumulator `m`. -/
def jvalE (m : List (List Nat × JVal)) : List (List Nat × Benc) → List (List Nat × JVal)
  | [] => m
  | (k, v) :: es => jvalE (insertSorted m (lossyBytes k) (jval v)) es
end

/-- Byte list of the metainfo key `"name"`. -/
def nameKey : List Nat := [110, 97, 109, 101]

/-- Byte list of the metainfo key `"piece length"`. -/
def pieceLengthKey : List Nat := [112, 105, 101, 99, 101, 32, 108, 101, 110, 103, 116, 104]

/-- Byte list of the metainfo key `"pieces"`. -/
def piecesKey : List Nat := [112, 105, 101, 99, 101, 115]

/-- Byte list of the metainfo key `"length"`. -/
def lengthKey : List Nat := [108, 101, 110, 103, 116, 104]

/-- Byte list of the metainfo key `"files"`. -/
def filesKey : List Nat := [102, 105, 108, 101, 115]

/-- Byte list of the metainfo key `"path"`. -/
def pathKey : List Nat := [112, 97, 116, 104]

/-- The `File` struct of `src/main.rs` (`length` plus `path` segments). -/
structure File where
  length : Nat
  path : List (List Nat)

/-- The untagged `Keys` enum of `src/main.rs`: `SingleFile { length }` or
`MultiFile { files: File }` (note: a single `File`, as in the source). -/
inductive Keys where
  | singleFile : Nat → Keys
  | multiFile : File → Keys

/-- The typed `Info` struct of `src/main.rs`: only `name`, `piece length`,
`pieces` and the flattened `Keys` fields are modeled; any other key of the
source dictionary has no place in this structure. -/
structure Info where
  name : List Nat
  piece_length : Nat
  pieces : List Nat
  keys : Keys

/-- First value bound to key `k` in a decoded dictionary. -/
def lookupKey (es : List (List Nat × Benc)) (k : List Nat) : Option Benc :=
  match es with
  | [] => none
  | (k', v) :: rest => if k' = k then some v else lookupKey rest k

/-- Modelled from the spec: serde deserialization (not in `src/`) of a Rust
`String` field from a bencode value — a byte string whose bytes must be
well-formed UTF-8. -/
def asString : Benc → Option (List Nat)
  | .bstr s => if utf8Valid s then some s else none
  | _ => none

/-- Modelled from the spec: serde deserialization (not in `src/`) of a
`usize` field from a bencode value — a 64-bit integer that must be
non-negative. -/
def asUsize : Benc → Option Nat
  | .bint n => if 0 ≤ n then some n.toNat else none
  | _ => none

/-- `deserialize_pieces` from `src/main.rs`, applied to the contents of the
`pieces` byte string once `ByteBuf::deserialize` has extracted it: the
bytes are returned verbatim — there is no multiple-of-20 validation and no
error path in this function. -/
def deserialize_pieces (buf : List Nat) : Except Unit (List Nat) := .ok buf

/-- Modelled from the spec: serde deserialization of `Vec<String>` (the
`path` field) from a bencode value — a list whose elements are UTF-8 byte
strings. -/
def asPath : Benc → Option (List (List Nat))
  | .blist vs => vs.mapM asString
  | _ => none

/-- Modelled from the spec: serde-derived deserialization of the `File`
struct from a bencode value (needs `length` and `path`; other keys are
ignored). -/
def fileFromBenc : Benc → Option File
  | .bdict es => do
    let l ← (lookupKey es lengthKey).bind asUsize
    let p ← (lookupKey es pathKey).bind asPath
    some ⟨l, p⟩
  | _ => none

/-- Modelled from the spec: the `#[serde(untagged)]` deserialization of
`Keys` from the flattened remainder of the info dictionary — first
`SingleFile { length }`, then `MultiFile { files }`; unknown keys are
ignored by both variants. -/
def keysFromEntries (es : List (List Nat × Benc)) : Option Keys :=
  match (lookupKey es lengthKey).bind asUsize with
  | some n => some (.singleFile n)
  | none =>
    match (lookupKey es filesKey).bind fileFromBenc with
    | some f => some (.multiFile f)
    | none => none

/-- Modelled from the spec: serde-derived deserialization of `Info`
(`src/main.rs` struct definition, field attributes included) from a decoded
bencode dictionary.  Required fields are projected by key; every key not
named in the struct is dropped — the struct has no catch-all field. -/
def infoFromBenc : Benc → Option Info
  | .bdict es => do
    let nm ← (lookupKey es nameKey).bind asString
    let pl ← (lookupKey es pieceLengthKey).bind asUsize
    let pcs ← (lookupKey es piecesKey).bind (fun v =>
      match v with
      | .bstr s => (deserialize_pieces s).toOption
      | _ => none)
    let ks ← keysFromEntries es
    some ⟨nm, pl, pcs, ks⟩
  | _ => none

/-- `Torrent::encoded_info` from `src/main.rs`:
`serde_bencode::to_bytes(&self.info)`.  Modelled from the spec: the
`serde_bencode` encoder (not in `src/`) serializes the struct as a bencode
dictionary whose keys are emitted in ascending lexicographic byte order
(spec §4.1); the entry lists below are written in that order.  Only the
fields of the typed struct are emitted. -/
def encoded_info (i : Info) : List Nat :=
  match i.keys with
  | .singleFile n =>
    encB (.bdict [(lengthKey, .bint (Int.ofNat n)), (nameKey, .bstr i.name),
      (pieceLengthKey, .bint (Int.ofNat i.piece_length)), (piecesKey, .bstr i.pieces)])
  | .multiFile f =>
    encB (.bdict [(filesKey, .bdict [(lengthKey, .bint (Int.ofNat f.length)),
        (pathKey, .blist (f.path.map Benc.bstr))]),
      (nameKey, .bstr i.name),
      (pieceLengthKey, .bint (Int.ofNat i.piece_length)), (piecesKey, .bstr i.pieces)])

/-- Keys of a dictionary entry list, in order. -/
def keysOf (es : List (List Nat × Benc)) : List (List Nat) := es.map Prod.fst

/-- `true` iff the keys are in strictly ascending lexicographic byte order. -/
def keysSorted : List (List Nat) → Bool
  | [] => true
  | [_] => true
  | k1 :: k2 :: r => listLt k1 k2 && keysSorted (k2 :: r)

mutual
/-- Canonical-form check for a bencode value (spec §3/§4.1): dictionary
keys strictly ascending in byte order, recursively. -/
def canonicalB : Benc → Bool
  | .bstr _ => true
  | .bint _ => true
  | .blist vs => canonicalL vs
  | .bdict es => keysSorted (keysOf es) && canonicalE es
/-- `canonicalB` on every element of a list. -/
def canonicalL : List Benc → Bool
  | [] => true
  | v :: vs => canonicalB v && canonicalL vs
/-- `canonicalB` on every entry value. -/
def canonicalE : List (List Nat × Benc) → Bool
  | [] => true
  | (_, v) :: es => canonicalB v && canonicalE es
end

/-- The `Peer` struct of `src/main.rs`: an IPv4 address (four octets) and a
port. -/
structure Peer where
  ip : Nat × Nat × Nat × Nat
  port : Nat

/-- One 6-byte record of the compact peer format:
`Ipv4Addr::new(chunk[0], chunk[1], chunk[2], chunk[3])` and
`u16::from_be_bytes([chunk[4], chunk[5]])`. -/
def peerOfChunk (c : List Nat) : Peer :=
  ⟨(c.getD 0 0, c.getD 1 0, c.getD 2 0, c.getD 3 0), 256 * c.getD 4 0 + c.getD 5 0⟩

/-- `slice::chunks_exact(6)`: consecutive 6-byte chunks; a trailing
fragment shorter than 6 bytes is not yielded. -/
def chunksExact6 : List Nat → List (List Nat)
  | b0 :: b1 :: b2 :: b3 :: b4 :: b5 :: rest =>
    [b0, b1, b2, b3, b4, b5] :: chunksExact6 rest
  | _ => []

/-- `deserialize_peers` from `src/main.rs`, applied to the contents of the
`peers` byte string once `ByteBuf::deserialize` has extracted it:
`chunks_exact(6)` over the bytes, each chunk mapped to a `Peer`; the
function has no error path of its own. -/
def deserialize_peers (buf : List Nat) : Except Unit (List Peer) :=
  .ok ((chunksExact6 buf).map peerOfChunk)

/-- One lowercase hex digit (`hex::encode` alphabet). -/
def hexDigit (d : Nat) : Nat := if d < 10 then 48 + d else 87 + d

/-- `hex::encode`: two lowercase hex digits per byte (`% 256` models the
`u8` domain). -/
def hexEncode (l : List Nat) : List Nat :=
  l.flatMap (fun b => [hexDigit (b % 256 / 16), hexDigit (b % 16)])

/-- `slice::chunks(20)` with a fuel bound (`fuel ≥ length` suffices): the
final chunk may be shorter than 20 bytes. -/
def chunks20Go : Nat → List Nat → List (List Nat)
  | _, [] => []
  | 0, _ => []
  | f + 1, l => l.take 20 :: chunks20Go f (l.drop 20)

/-- `slice::chunks(20)` over a byte list. -/
def chunks20 (l : List Nat) : List (List Nat) := chunks20Go l.length l

/-- `Torrent::pieces_hash` from `src/main.rs`, abstracted over the bytes of
`self.info.pieces`: `chunks(20)` then `hex::encode` of each chunk. -/
def pieces_hash (pieces : List Nat) : List (List Nat) :=
  (chunks20 pieces).map hexEncode

/-- `urlencode_bytes` from `src/main.rs`: for every byte push `%` (byte 37)
followed by the two lowercase hex digits of the byte (`hex::encode([b])`);
`% 256` models the `u8` domain of the input. -/
def urlencode_bytes (v : List Nat) : List Nat :=
  v.flatMap (fun b => [37, hexDigit (b % 256 / 16), hexDigit (b % 16)])

/-! ### Arithmetic facts about decimal digits and parsing -/

theorem natDigitsGo_digits : ∀ f n, ∀ x ∈ natDigitsGo f n, 48 ≤ x ∧ x ≤ 57 := by
  intro f
  induction f with
  | zero => intro n x hx; simp [natDigitsGo] at hx
  | succ f ih =>
    intro n x hx
    by_cases h : n = 0
    · simp [natDigitsGo, h] at hx
    · simp only [natDigitsGo, if_neg h, List.mem_cons] at hx
      rcases hx with hx | hx
      · subst hx; constructor <;> omega
      · exact ih _ _ hx

theorem digitsVal_append_last (xs : List Nat) (d : Nat) :
    digitsVal (xs ++ [d]) = 10 * digitsVal xs + (d - 48) := by
  simp [digitsVal, List.foldl_append]

theorem digitsVal_natDigitsGo : ∀ f n, n ≤ f → digitsVal (natDigitsGo f n).reverse = n := by
  intro f
  induction f with
  | zero => intro n h; interval_cases n; simp [natDigitsGo, digitsVal]
  | succ f ih =>
    intro n h
    by_cases h0 : n = 0
    · subst h0; simp [natDigitsGo, digitsVal]
    · have hdiv : n / 10 ≤ f := by
        have : n / 10 < n := Nat.div_lt_self (Nat.pos_of_ne_zero h0) (by omega)
        omega
      simp only [natDigitsGo, if_neg h0, List.reverse_cons]
      rw [digitsVal_append_last, ih _ hdiv]
      omega

theorem natDigits_ne_nil (n : Nat) : natDigits n ≠ [] := by
  by_cases h : n = 0
  · simp [natDigits, h]
  · obtain ⟨f, rfl⟩ : ∃ f, n = f + 1 := ⟨n - 1, by omega⟩
    simp [natDigits, natDigitsGo, h]

theorem natDigits_digits (n : Nat) : ∀ x ∈ natDigits n, 48 ≤ x ∧ x ≤ 57 := by
  intro x hx
  by_cases h : n = 0
  · simp [natDigits, h] at hx; subst hx; omega
  · simp only [natDigits, if_neg h, List.mem_reverse] at hx
    exact natDigitsGo_digits _ _ _ hx

theorem digitsVal_natDigits (n : Nat) : digitsVal (natDigits n) = n := by
  by_cases h : n = 0
  · simp [natDigits, h, digitsVal]
  · simp only [natDigits, if_neg h]
    exact digitsVal_natDigitsGo n n le_rfl

theorem parseUsize_of_digits (s : List Nat) (h1 : s ≠ [])
    (h2 : ∀ x ∈ s, 48 ≤ x ∧ x ≤ 57) (h3 : digitsVal s < 18446744073709551616) :
    parseUsize s = some (digitsVal s) := by
  have hhead : s.head? ≠ some 43 := by
    cases s with
    | nil => simp
    | cons a r =>
      have := h2 a (by simp)
      simp only [List.head?_cons, ne_eq, Option.some.injEq]
      omega
  have hall : s.all isDigit = true := by
    simp only [List.all_eq_true]
    intro x hx
    have := h2 x hx
    simp [isDigit]; omega
  simp [parseUsize, if_neg hhead, h1, hall, h3]

theorem parseI64_of_digits (s : List Nat) (h1 : s ≠ [])
    (h2 : ∀ x ∈ s, 48 ≤ x ∧ x ≤ 57) (h3 : digitsVal s ≤ 9223372036854775807) :
    parseI64 s = some (digitsVal s : Int) := by
  have hhead : ∀ c, s.head? = some c → 48 ≤ c ∧ c ≤ 57 := by
    cases s with
    | nil => simp
    | cons a r =>
      intro c hc
      simp only [List.head?_cons, Option.some.injEq] at hc
      subst hc
      exact h2 a (by simp)
  have h43 : s.head? ≠ some 43 := fun h => by have := hhead _ h; omega
  have h45 : s.head? ≠ some 45 := fun h => by have := hhead _ h; omega
  have hall : s.all isDigit = true := by
    simp only [List.all_eq_true]
    intro x hx
    have := h2 x hx
    simp [isDigit]; omega
  simp [parseI64, if_neg h43, if_neg h45, h1, hall, h3]

theorem parseI64_of_neg_digits (s : List Nat) (h1 : s ≠ [])
    (h2 : ∀ x ∈ s, 48 ≤ x ∧ x ≤ 57) (h3 : digitsVal s ≤ 9223372036854775808) :
    parseI64 (45 :: s) = some (-(digitsVal s : Int)) := by
  have hall : s.all isDigit = true := by
    simp only [List.all_eq_true]
    intro x hx
    have := h2 x hx
    simp [isDigit]; omega
  simp [parseI64, h1, hall, h3]

/-! ### `from_utf8_lossy` and UTF-8 validation on ASCII input -/

theorem lossyGo_ascii : ∀ f l, (∀ x ∈ l, x < 128) → l.length ≤ f → lossyGo f l = l := by
  intro f
  induction f with
  | zero =>
    intro l h hl
    have hnil : l = [] := List.length_eq_zero.mp (Nat.le_zero.mp hl)
    subst hnil
    simp [lossyGo]
  | succ f ih =>
    intro l h hl
    cases l with
    | nil => simp [lossyGo]
    | cons b r =>
      have hb : b < 128 := h b (by simp)
      simp only [lossyGo, if_pos hb]
      rw [ih r (fun x hx => h x (by simp [hx])) (by simp at hl; omega)]

theorem lossyBytes_ascii (l : List Nat) (h : ∀ x ∈ l, x < 128) : lossyBytes l = l :=
  lossyGo_ascii _ _ h le_rfl

theorem utf8Go_ascii : ∀ f l, (∀ x ∈ l, x < 128) → utf8Go f l = true := by
  intro f
  induction f with
  | zero => intro l h; simp [utf8Go]
  | succ f ih =>
    intro l h
    cases l with
    | nil => simp [utf8Go]
    | cons b r =>
      have hb : b < 128 := h b (by simp)
      simp only [utf8Go, if_pos hb]
      exact ih r (fun x hx => h x (by simp [hx]))

theorem utf8Valid_ascii (l : List Nat) (h : ∀ x ∈ l, x < 128) : utf8Valid l = true :=
  utf8Go_ascii _ _ h

/-! ### Locating the first delimiter byte -/

theorem findIdx?_append_cons (p : Nat → Bool) (l2 : List Nat) (c : Nat)
    (hc : p c = true) :
    ∀ (l1 : List Nat) (i : Nat), (∀ x ∈ l1, p x = false) →
      List.findIdx? p (l1 ++ c :: l2) i = some (i + l1.length) := by
  intro l1
  induction l1 with
  | nil => intro i _; simp [List.findIdx?_cons, hc]
  | cons a l1 ih =>
    intro i h
    have ha : p a = false := h a (by simp)
    simp only [List.cons_append, List.findIdx?_cons, ha, Bool.false_eq_true, if_false]
    rw [ih (i + 1) (fun x hx => h x (by simp [hx]))]
    simp; omega

/-! ### The leaf decoders on well-formed encodings -/

theorem decode_string_value_enc (s t : List Nat)
    (h : s.length < 18446744073709551616) :
    decode_string_value (encStr s ++ t) = .ok (.str (lossyBytes s)) t := by
  have hd := natDigits_digits s.length
  have hlt : ∀ x ∈ natDigits s.length, x < 128 := fun x hx => by
    have := hd x hx; omega
  have harr : encStr s ++ t = natDigits s.length ++ 58 :: (s ++ t) := by
    simp [encStr]
  rw [harr]
  have hfind : List.findIdx? (fun c => c == 58) (natDigits s.length ++ 58 :: (s ++ t))
      = some (natDigits s.length).length := by
    have := findIdx?_append_cons (fun c => c == 58) (s ++ t) 58 (by simp)
      (natDigits s.length) 0 (fun x hx => by
        have := hd x hx
        simp only [beq_eq_false_iff_ne, ne_eq]
        omega)
    simpa using this
  have htake : (natDigits s.length ++ 58 :: (s ++ t)).take (natDigits s.length).length
      = natDigits s.length := List.take_left _ _
  have hparse : parseUsize (natDigits s.length) = some s.length := by
    rw [parseUsize_of_digits _ (natDigits_ne_nil _) hd
      (by rw [digitsVal_natDigits]; exact h)]
    rw [digitsVal_natDigits]
  have hlen : (natDigits s.length).length + 1 + s.length
      ≤ (natDigits s.length ++ 58 :: (s ++ t)).length := by
    simp [List.length_append]; omega
  have hdrop1 : (natDigits s.length ++ 58 :: (s ++ t)).drop
      ((natDigits s.length).length + 1) = s ++ t := by
    have : natDigits s.length ++ 58 :: (s ++ t)
        = (natDigits s.length ++ [58]) ++ (s ++ t) := by simp
    rw [this]
    have hl : (natDigits s.length).length + 1 = (natDigits s.length ++ [58]).length := by
      simp
    rw [hl, List.drop_left]
  have hdrop2 : (natDigits s.length ++ 58 :: (s ++ t)).drop
      ((natDigits s.length).length + 1 + s.length) = t := by
    have : natDigits s.length ++ 58 :: (s ++ t)
        = ((natDigits s.length ++ [58]) ++ s) ++ t := by simp
    rw [this]
    have hl : (natDigits s.length).length + 1 + s.length
        = ((natDigits s.length ++ [58]) ++ s).length := by
      simp only [List.length_append, List.length_cons, List.length_nil]
      try omega
    rw [hl, List.drop_left]
  simp only [decode_string_value, hfind, htake,
    utf8Valid_ascii _ hlt, hparse, if_pos hlen, hdrop1, hdrop2, if_true]
  rw [List.take_left]

theorem decode_integer_value_body (body t : List Nat)
    (hb : ∀ x ∈ body, x ≠ 101) :
    decode_integer_value (105 :: (body ++ 101 :: t)) =
      (match parseI64 (lossyBytes body) with
       | none => DRes.err
       | some n => .ok (.num n) t) := by
  have hfind : List.findIdx? (fun c => c == 101) (105 :: (body ++ 101 :: t))
      = some (body.length + 1) := by
    have := findIdx?_append_cons (fun c => c == 101) t 101 (by simp)
      (105 :: body) 0 (fun x hx => by
        simp only [List.mem_cons] at hx
        rcases hx with rfl | hx
        · simp
        · have := hb x hx
          simp only [beq_eq_false_iff_ne, ne_eq]
          exact this)
    simpa [Nat.add_comm] using this
  have hdrop1 : (105 :: (body ++ 101 :: t)).drop 1 = body ++ 101 :: t := rfl
  have htake : (body ++ 101 :: t).take (body.length + 1 - 1) = body := by
    simp [List.take_left]
  have hdrop2 : (105 :: (body ++ 101 :: t)).drop (body.length + 1 + 1) = t := by
    have : 105 :: (body ++ 101 :: t) = ((105 :: body) ++ [101]) ++ t := by simp
    rw [this]
    have hl : body.length + 1 + 1 = ((105 :: body) ++ [101]).length := by simp
    rw [hl, List.drop_left]
  simp only [decode_integer_value, hfind, hdrop1, htake, hdrop2]
  simp

theorem parseI64_lossy_intDigits (n : Int) (h1 : -9223372036854775808 ≤ n)
    (h2 : n < 9223372036854775808) :
    parseI64 (lossyBytes (intDigits n)) = some n := by
  by_cases hn : n < 0
  · have habs : (n.natAbs : Int) = -n := by omega
    have hdig := natDigits_digits n.natAbs
    have : intDigits n = 45 :: natDigits n.natAbs := by simp [intDigits, hn]
    rw [this, lossyBytes_ascii _ (by
      intro x hx
      simp only [List.mem_cons] at hx
      rcases hx with rfl | hx
      · omega
      · have := hdig x hx; omega)]
    rw [parseI64_of_neg_digits _ (natDigits_ne_nil _) hdig
      (by rw [digitsVal_natDigits]; omega)]
    rw [digitsVal_natDigits]
    congr 1
    omega
  · have hdig := natDigits_digits n.toNat
    have : intDigits n = natDigits n.toNat := by simp [intDigits, hn]
    rw [this, lossyBytes_ascii _ (fun x hx => by have := hdig x hx; omega)]
    rw [parseI64_of_digits _ (natDigits_ne_nil _) hdig
      (by rw [digitsVal_natDigits]; omega)]
    rw [digitsVal_natDigits]
    congr 1
    omega

/-! ### Shape facts about encodings -/

theorem encStr_length_ge2 (s : List Nat) : 2 ≤ (encStr s).length := by
  have := natDigits_ne_nil s.length
  have : 0 < (natDigits s.length).length := List.length_pos.mpr this
  simp [encStr]
  omega

theorem encB_length_ge2 : ∀ v : Benc, 2 ≤ (encB v).length := by
  intro v
  cases v with
  | bstr s => exact encStr_length_ge2 s
  | bint n => simp [encB]
  | blist vs => simp [encB]
  | bdict es => simp [encB]

theorem encB_head_ne_e : ∀ v : Benc, ∃ c, (encB v).head? = some c ∧ ¬c = 101 := by
  intro v
  cases v with
  | bstr s =>
    obtain ⟨d, r, hdr⟩ : ∃ d r, natDigits s.length = d :: r := by
      cases h : natDigits s.length with
      | nil => exact absurd h (natDigits_ne_nil _)
      | cons d r => exact ⟨d, r, rfl⟩
    have hd : 48 ≤ d ∧ d ≤ 57 := natDigits_digits _ d (by rw [hdr]; simp)
    refine ⟨d, ?_, by omega⟩
    simp [encB, encStr, hdr]
  | bint n => exact ⟨105, by simp [encB], by omega⟩
  | blist vs => exact ⟨108, by simp [encB], by omega⟩
  | bdict es => exact ⟨100, by simp [encB], by omega⟩

theorem getLast?_append_cons_101 (xs t : List Nat)
    (ht : t = [] ∨ t.getLast? = some 101) :
    (xs ++ 101 :: t).getLast? = some 101 := by
  rcases ht with rfl | ht
  · rw [List.getLast?_append]
    simp
  · have h1 : (101 :: t).getLast? = some 101 := by
      cases t with
      | nil => simp at ht
      | cons a t' => rw [List.getLast?_cons_cons]; exact ht
    rw [List.getLast?_append, h1]
    simp

/-! ### The decoder on well-formed encodings with trailing bytes -/

theorem decodeGo_spec : ∀ f : Nat,
    (∀ v t, wfB v = true →
      (t = [] ∨ t.getLast? = some 101 ∨ dictFree v = true) →
      (encB v).length < f →
      decodeGo f (.val (encB v ++ t)) = .ok (jval v) t) ∧
    (∀ vs acc t, wfL vs = true →
      (t = [] ∨ t.getLast? = some 101 ∨ dictFreeL vs = true) →
      (encList vs).length + 2 ≤ f →
      decodeGo f (.items (encList vs ++ 101 :: t) acc) = .ok (.arr (acc ++ jvalL vs)) t) ∧
    (∀ es m t, wfE es = true →
      (t = [] ∨ t.getLast? = some 101) →
      (encEntries es).length + 2 ≤ f →
      decodeGo f (.entries (encEntries es ++ 101 :: t) m) = .ok (.obj (jvalE m es)) t) := by
  intro f
  induction f with
  | zero =>
    refine ⟨fun v t _ _ hf => absurd hf (by omega),
            fun vs acc t _ _ hf => absurd hf (by omega),
            fun es m t _ _ hf => absurd hf (by omega)⟩
  | succ f ih =>
    obtain ⟨ihv, ihi, ihe⟩ := ih
    refine ⟨?_, ?_, ?_⟩
    · intro v t hwf htr hf
      cases v with
      | bstr s =>
        obtain ⟨d, r, hdr⟩ : ∃ d r, natDigits s.length = d :: r := by
          cases h : natDigits s.length with
          | nil => exact absurd h (natDigits_ne_nil _)
          | cons d r => exact ⟨d, r, rfl⟩
        have hd48 : 48 ≤ d ∧ d ≤ 57 := natDigits_digits _ d (by rw [hdr]; simp)
        have hhead : (encB (Benc.bstr s) ++ t).head? = some d := by
          simp [encB, encStr, hdr]
        simp only [decodeGo, hhead]
        rw [if_pos hd48]
        have hs : s.length < 18446744073709551616 := by
          simpa [wfB] using hwf
        have hbs : encB (Benc.bstr s) = encStr s := rfl
        rw [hbs, decode_string_value_enc s t hs]
        simp [jval]
      | bint n =>
        have hhead : (encB (Benc.bint n) ++ t).head? = some 105 := by
          simp [encB]
        have harr : encB (Benc.bint n) ++ t = 105 :: (intDigits n ++ 101 :: t) := by
          simp [encB]
        obtain ⟨h1, h2⟩ : -9223372036854775808 ≤ n ∧ n < 9223372036854775808 := by
          simpa [wfB] using hwf
        simp only [decodeGo, hhead, if_true]
        rw [harr, decode_integer_value_body _ _ (by
          intro x hx
          by_cases hxn : x ∈ natDigits n.natAbs ∨ x ∈ natDigits n.toNat
          · rcases hxn with hxn | hxn
            · have := natDigits_digits _ x hxn; omega
            · have := natDigits_digits _ x hxn; omega
          · simp only [intDigits] at hx
            split at hx
            · simp only [List.mem_cons] at hx
              rcases hx with rfl | hx
              · omega
              · exact absurd (Or.inl hx) hxn
            · exact absurd (Or.inr hx) hxn)]
        rw [parseI64_lossy_intDigits n h1 h2]
        rw [if_neg (by omega)]
        rfl
      | blist vs =>
        have hhead : (encB (Benc.blist vs) ++ t).head? = some 108 := by
          simp [encB]
        have hdrop : (encB (Benc.blist vs) ++ t).drop 1 = encList vs ++ 101 :: t := by
          simp [encB]
        have hlen : (encB (Benc.blist vs)).length = (encList vs).length + 2 := by
          simp [encB]
        simp only [decodeGo, hhead, if_true]
        rw [hdrop]
        rw [ihi vs [] t (by simpa [wfB] using hwf)
          (by
            rcases htr with rfl | ht | hdf
            · exact Or.inl rfl
            · exact Or.inr (Or.inl ht)
            · exact Or.inr (Or.inr (by simpa [dictFree] using hdf)))
          (by omega)]
        simp [jval]
      | bdict es =>
        have hhead : (encB (Benc.bdict es) ++ t).head? = some 100 := by
          simp [encB]
        have htr' : t = [] ∨ t.getLast? = some 101 := by
          rcases htr with rfl | ht | hdf
          · exact Or.inl rfl
          · exact Or.inr ht
          · rw [show dictFree (Benc.bdict es) = false from rfl] at hdf
            exact absurd hdf (by simp)
        have hdrop : (encB (Benc.bdict es) ++ t).drop 1 = encEntries es ++ 101 :: t := by
          simp [encB]
        have hlen : (encB (Benc.bdict es)).length = (encEntries es).length + 2 := by
          simp [encB]
        simp only [decodeGo, hhead, if_true]
        rw [hdrop, getLast?_append_cons_101 _ _ htr']
        show decodeGo f (DIn.entries (encEntries es ++ 101 :: t) [])
          = DRes.ok (jval (Benc.bdict es)) t
        rw [ihe es [] t (by simpa [wfB] using hwf) htr' (by omega)]
        simp [jval]
    · intro vs acc t hwf htr hf
      cases vs with
      | nil =>
        have hbuf : encList ([] : List Benc) ++ 101 :: t = 101 :: t := by simp [encList]
        rw [hbuf]
        show DRes.ok (JVal.arr acc) t = DRes.ok (JVal.arr (acc ++ jvalL [])) t
        simp [jvalL]
      | cons v vs' =>
        have harr : encList (v :: vs') ++ 101 :: t
            = encB v ++ (encList vs' ++ 101 :: t) := by
          simp [encList]
        obtain ⟨c, hc, hcne⟩ := encB_head_ne_e v
        have hhead : (encB v ++ (encList vs' ++ 101 :: t)).head? = some c := by
          rw [List.head?_append, hc]
          rfl
        obtain ⟨hwv, hwl⟩ : wfB v = true ∧ wfL vs' = true := by
          simpa [wfL, Bool.and_eq_true] using hwf
        have hlen : (encList (v :: vs')).length
            = (encB v).length + (encList vs').length := by
          simp [encList]
        have hge := encB_length_ge2 v
        have htrc : encList vs' ++ 101 :: t = [] ∨
            (encList vs' ++ 101 :: t).getLast? = some 101 ∨ dictFree v = true := by
          rcases htr with rfl | ht | hdf
          · exact Or.inr (Or.inl (getLast?_append_cons_101 _ _ (Or.inl rfl)))
          · exact Or.inr (Or.inl (getLast?_append_cons_101 _ _ (Or.inr ht)))
          · obtain ⟨h1, _⟩ : dictFree v = true ∧ dictFreeL vs' = true := by
              simpa [dictFreeL, Bool.and_eq_true] using hdf
            exact Or.inr (Or.inr h1)
        have htrl : t = [] ∨ t.getLast? = some 101 ∨ dictFreeL vs' = true := by
          rcases htr with rfl | ht | hdf
          · exact Or.inl rfl
          · exact Or.inr (Or.inl ht)
          · obtain ⟨_, h2⟩ : dictFree v = true ∧ dictFreeL vs' = true := by
              simpa [dictFreeL, Bool.and_eq_true] using hdf
            exact Or.inr (Or.inr h2)
        rw [harr]
        simp only [decodeGo, hhead]
        rw [if_neg hcne]
        rw [ihv v (encList vs' ++ 101 :: t) hwv htrc (by omega)]
        show decodeGo f (DIn.items (encList vs' ++ 101 :: t) (acc ++ [jval v]))
          = DRes.ok (JVal.arr (acc ++ jvalL (v :: vs'))) t
        rw [ihi vs' (acc ++ [jval v]) t hwl htrl (by omega)]
        simp [jvalL, List.append_assoc]
    · intro es m t hwf htr hf
      cases es with
      | nil =>
        have hbuf : encEntries ([] : List (List Nat × Benc)) ++ 101 :: t = 101 :: t := by
          simp [encEntries]
        rw [hbuf]
        show DRes.ok (JVal.obj m) t = DRes.ok (JVal.obj (jvalE m [])) t
        simp [jvalE]
      | cons e es' =>
        obtain ⟨k, v⟩ := e
        have harr : encEntries ((k, v) :: es') ++ 101 :: t
            = encStr k ++ (encB v ++ (encEntries es' ++ 101 :: t)) := by
          simp [encEntries]
        obtain ⟨d, r, hdr⟩ : ∃ d r, natDigits k.length = d :: r := by
          cases h : natDigits k.length with
          | nil => exact absurd h (natDigits_ne_nil _)
          | cons d r => exact ⟨d, r, rfl⟩
        have hd48 : 48 ≤ d ∧ d ≤ 57 := natDigits_digits _ d (by rw [hdr]; simp)
        have hhead : (encStr k ++ (encB v ++ (encEntries es' ++ 101 :: t))).head?
            = some d := by
          simp [encStr, hdr]
        obtain ⟨hk, hwv, hwe⟩ :
            k.length < 18446744073709551616 ∧ wfB v = true ∧ wfE es' = true := by
          simpa [wfE, Bool.and_eq_true, and_assoc] using hwf
        have hgev := encB_length_ge2 v
        have hgek := encStr_length_ge2 k
        have hlen : (encEntries ((k, v) :: es')).length
            = (encStr k).length + ((encB v).length + (encEntries es').length) := by
          simp [encEntries]
        have hkey : decodeGo f (.val (encB (Benc.bstr k)
            ++ (encB v ++ (encEntries es' ++ 101 :: t))))
            = .ok (jval (Benc.bstr k)) (encB v ++ (encEntries es' ++ 101 :: t)) := by
          apply ihv (Benc.bstr k) _ (by simpa [wfB] using hk)
            (Or.inr (Or.inr (by simp [dictFree])))
          have hek : encB (Benc.bstr k) = encStr k := rfl
          rw [hek]
          omega
        have hval : decodeGo f (.val (encB v ++ (encEntries es' ++ 101 :: t)))
            = .ok (jval v) (encEntries es' ++ 101 :: t) := by
          apply ihv v _ hwv (Or.inr (Or.inl (getLast?_append_cons_101 _ _ htr)))
          omega
        rw [harr]
        simp only [decodeGo, hhead]
        rw [if_neg (by omega)]
        have hbk : encStr k ++ (encB v ++ (encEntries es' ++ 101 :: t))
            = encB (Benc.bstr k) ++ (encB v ++ (encEntries es' ++ 101 :: t)) := rfl
        rw [hbk, hkey]
        show (match decodeGo f (DIn.val (encB v ++ (encEntries es' ++ 101 :: t))) with
              | DRes.ok vv r2 =>
                decodeGo f (DIn.entries r2 (insertSorted m (lossyBytes k) vv))
              | DRes.err => DRes.err
              | DRes.panic => DRes.panic)
          = DRes.ok (JVal.obj (jvalE m ((k, v) :: es'))) t
        rw [hval]
        show decodeGo f (DIn.entries (encEntries es' ++ 101 :: t)
            (insertSorted m (lossyBytes k) (jval v)))
          = DRes.ok (JVal.obj (jvalE m ((k, v) :: es'))) t
        rw [ihe es' (insertSorted m (lossyBytes k) (jval v)) t hwe htr (by omega)]
        simp [jvalE]

/-! ### Parsing with explicit range outcome -/

theorem parseI64_digits_eq (s : List Nat) (h1 : s ≠ [])
    (h2 : ∀ x ∈ s, 48 ≤ x ∧ x ≤ 57) :
    parseI64 s = if digitsVal s ≤ 9223372036854775807
      then some (digitsVal s : Int) else none := by
  by_cases hb : digitsVal s ≤ 9223372036854775807
  · rw [parseI64_of_digits s h1 h2 hb, if_pos hb]
  · rw [if_neg hb]
    have hhead : ∀ c, s.head? = some c → 48 ≤ c ∧ c ≤ 57 := by
      cases s with
      | nil => simp
      | cons a r =>
        intro c hc
        simp only [List.head?_cons, Option.some.injEq] at hc
        subst hc
        exact h2 a (by simp)
    have h43 : s.head? ≠ some 43 := fun h => by have := hhead _ h; omega
    have h45 : s.head? ≠ some 45 := fun h => by have := hhead _ h; omega
    have hall : s.all isDigit = true := by
      simp only [List.all_eq_true]
      intro x hx
      have := h2 x hx
      simp [isDigit]; omega
    simp [parseI64, if_neg h43, if_neg h45, h1, hall, hb]

theorem parseI64_neg_digits_eq (s : List Nat) (h1 : s ≠ [])
    (h2 : ∀ x ∈ s, 48 ≤ x ∧ x ≤ 57) :
    parseI64 (45 :: s) = if digitsVal s ≤ 9223372036854775808
      then some (-(digitsVal s : Int)) else none := by
  by_cases hb : digitsVal s ≤ 9223372036854775808
  · rw [parseI64_of_neg_digits s h1 h2 hb, if_pos hb]
  · rw [if_neg hb]
    have hall : s.all isDigit = true := by
      simp only [List.all_eq_true]
      intro x hx
      have := h2 x hx
      simp [isDigit]; omega
    simp [parseI64, h1, hall, hb]

/-! ### Claim theorems: the bencode decoder -/

/-- C2: the claim that decoding any byte buffer (empty, truncated or
otherwise malformed) returns an error value and never panics is violated by
the code: on the empty buffer the dispatcher calls `.unwrap()` on `None`,
and on the truncated string `"3:ab"` the slice `&b[2..5]` indexes past the
end of the 4-byte buffer; both abort the process instead of returning an
error. -/
theorem c2_decode_panics_on_malformed :
    decode_bencoded_value [] = DRes.panic ∧
    decode_bencoded_value [51, 58, 97, 98] = DRes.panic :=
  ⟨rfl, rfl⟩

/-- C3: the claim that the byte-string production yields the declared bytes
verbatim is violated by the code: the payload passes through
`String::from_utf8_lossy`, so decoding `"1:"` followed by the single byte
`0xFF` yields the three UTF-8 bytes `EF BF BD` of U+FFFD instead of the
byte `FF`. -/
theorem c3_lossy_alters_bytes :
    decode_bencoded_value [49, 58, 255] = DRes.ok (.str [239, 191, 189]) [] ∧
    ([239, 191, 189] : List Nat) ≠ [255] :=
  ⟨rfl, by decide⟩

/-- C7 counterexample: `[100, 101]` (the canonical encoding `"de"` of the
empty dictionary) decodes fine on its own, but followed by the trailing
bytes `"1:x"` (a well-formed value whose final byte is not `e`) the whole
buffer fails to decode, instead of returning the empty dictionary with
remainder `"1:x"` as the claim states. -/
theorem c7_counterexample :
    decode_bencoded_value [100, 101] = DRes.ok (.obj []) [] ∧
    decode_bencoded_value ([100, 101] ++ [49, 58, 120]) = DRes.err :=
  ⟨rfl, rfl⟩

/-- C7 (amended): for a buffer consisting of one well-formed top-level
bencode value followed by arbitrary trailing bytes, decode consumes exactly
the bytes of that value and returns the trailing bytes as the exact
untouched remainder — provided the value contains no dictionary, or the
trailing bytes are empty or end with byte `e` (dictionary decoding
pre-checks the final byte of the whole remaining input). -/
theorem c7_amended_one_value_exact_remainder (v : Benc) (t : List Nat)
    (hwf : wfB v = true)
    (htr : t = [] ∨ t.getLast? = some 101 ∨ dictFree v = true) :
    decode_bencoded_value (encB v ++ t) = .ok (jval v) t := by
  have hlen : (encB v).length < (encB v ++ t).length + 1 := by
    rw [List.length_append]; omega
  exact (decodeGo_spec ((encB v ++ t).length + 1)).1 v t hwf htr hlen

/-- C7 witness: decoding `"4:spam" ++ "3:egg"` yields `"spam"` with the
exact remainder `"3:egg"`. -/
theorem c7_amended_witness :
    decode_bencoded_value ([52, 58, 115, 112, 97, 109] ++ [51, 58, 101, 103, 103])
      = DRes.ok (.str [115, 112, 97, 109]) [51, 58, 101, 103, 103] := by
  have h := c7_amended_one_value_exact_remainder (Benc.bstr [115, 112, 97, 109])
    [51, 58, 101, 103, 103] (by decide) (Or.inr (Or.inr (by decide)))
  exact h

/-- C8: decoding the integer production `i<body>e` (optional `-` then
decimal digits) returns the exact signed value when it lies within the
signed 64-bit range and an error otherwise — no truncation or wrapping. -/
theorem c8_integer_i64_range (ds : List Nat) (neg : Bool) (h1 : ds ≠ [])
    (h2 : ∀ d ∈ ds, 48 ≤ d ∧ d ≤ 57) :
    decode_bencoded_value ([105] ++ (if neg then [45] else []) ++ ds ++ [101]) =
      if -9223372036854775808 ≤ (if neg then -(digitsVal ds : Int) else (digitsVal ds : Int)) ∧
          (if neg then -(digitsVal ds : Int) else (digitsVal ds : Int)) < 9223372036854775808
      then DRes.ok (.num (if neg then -(digitsVal ds : Int) else (digitsVal ds : Int))) []
      else DRes.err := by
  have harr : [105] ++ (if neg then [45] else []) ++ ds ++ [101]
      = 105 :: (((if neg then [45] else []) ++ ds) ++ 101 :: ([] : List Nat)) := by
    cases neg <;> simp
  rw [harr]
  have hdisp : decode_bencoded_value
      (105 :: (((if neg then [45] else []) ++ ds) ++ 101 :: ([] : List Nat)))
      = decode_integer_value
        (105 :: (((if neg then [45] else []) ++ ds) ++ 101 :: ([] : List Nat))) := rfl
  rw [hdisp, decode_integer_value_body _ _ (by
    intro x hx
    simp only [List.mem_append] at hx
    rcases hx with hx | hx
    · cases neg with
      | true => simp at hx; omega
      | false => simp at hx
    · have := h2 x hx; omega)]
  rw [lossyBytes_ascii _ (by
    intro x hx
    simp only [List.mem_append] at hx
    rcases hx with hx | hx
    · cases neg with
      | true => simp at hx; omega
      | false => simp at hx
    · have := h2 x hx; omega)]
  cases neg with
  | true =>
    try simp only [reduceIte]
    have hcons : ([45] ++ ds : List Nat) = 45 :: ds := rfl
    rw [hcons, parseI64_neg_digits_eq ds h1 h2]
    by_cases hb : digitsVal ds ≤ 9223372036854775808
    · rw [if_pos hb, if_pos (by constructor <;> omega)]
    · rw [if_neg hb, if_neg (by
        simp only [not_and, not_lt]
        intro hle
        omega)]
  | false =>
    simp only [Bool.false_eq_true, if_false]
    have hcons : (([] : List Nat) ++ ds) = ds := by simp
    rw [hcons, parseI64_digits_eq ds h1 h2]
    by_cases hb : digitsVal ds ≤ 9223372036854775807
    · rw [if_pos hb, if_pos (by constructor <;> omega)]
    · rw [if_neg hb, if_neg (by
        simp only [not_and, not_lt]
        intro hle
        omega)]

/-- C8 witness: `i9223372036854775808e` (one past `i64::MAX`) is an error,
and `i-42e` decodes to exactly `-42`. -/
theorem c8_integer_i64_range_witness :
    decode_bencoded_value ([105] ++ ([] : List Nat) ++
        [57, 50, 50, 51, 51, 55, 50, 48, 51, 54, 56, 53, 52, 55, 55, 53, 56, 48, 56] ++ [101])
      = DRes.err ∧
    decode_bencoded_value ([105] ++ [45] ++ [52, 50] ++ [101])
      = DRes.ok (.num (-42)) [] := by
  constructor
  · have h := c8_integer_i64_range
      [57, 50, 50, 51, 51, 55, 50, 48, 51, 54, 56, 53, 52, 55, 55, 53, 56, 48, 56]
      false (by decide) (by decide)
    rw [if_neg (by decide)] at h
    exact h
  · have h := c8_integer_i64_range [52, 50] true (by decide) (by decide)
    rw [if_pos (by decide)] at h
    exact h

/-- C10: dictionary decoding checks the final byte of the entire remaining
buffer: any buffer that starts with `d`, has at least one byte after it,
and whose very last byte is not `e` is rejected with an error — even when
it consists of a well-formed dictionary followed by trailing bytes. -/
theorem c10_dict_checks_final_byte (b : List Nat) (c : Nat)
    (hh : b.head? = some 100) (hl : 2 ≤ b.length)
    (hlast : b.getLast? = some c) (hc : c ≠ 101) :
    decode_bencoded_value b = DRes.err := by
  obtain ⟨y, rest, rfl⟩ : ∃ y rest, b = 100 :: y :: rest := by
    cases b with
    | nil => simp at hh
    | cons a b' =>
      cases b' with
      | nil => simp at hl
      | cons y rest =>
        simp only [List.head?_cons, Option.some.injEq] at hh
        exact ⟨y, rest, by rw [hh]⟩
  have hlast' : (y :: rest).getLast? = some c := by
    rw [← List.getLast?_cons_cons (a := 100)]
    exact hlast
  show decodeGo ((100 :: y :: rest).length + 1) (.val (100 :: y :: rest)) = DRes.err
  have hlen : (100 :: y :: rest).length + 1 = (rest.length + 2) + 1 := by simp
  rw [hlen]
  simp only [decodeGo, List.head?_cons]
  rw [show List.drop 1 (100 :: y :: rest) = y :: rest from rfl, hlast']
  simp [hc]

/-- C10 witness: the buffer `"dex"` starts with `d`, its final byte `x` is
not `e`, and decoding it fails. -/
theorem c10_dict_checks_final_byte_witness :
    decode_bencoded_value [100, 101, 120] = DRes.err :=
  c10_dict_checks_final_byte [100, 101, 120] 120 rfl (by decide) rfl (by decide)

/-! ### Chunking facts -/

theorem chunks20Go_length : ∀ f (l : List Nat), l.length ≤ f →
    (chunks20Go f l).length = (l.length + 19) / 20 := by
  intro f
  induction f with
  | zero =>
    intro l h
    have hnil : l = [] := List.length_eq_zero.mp (Nat.le_zero.mp h)
    subst hnil
    simp [chunks20Go]
  | succ f ih =>
    intro l h
    cases l with
    | nil => simp [chunks20Go]
    | cons a l' =>
      have hrec := ih ((a :: l').drop 20) (by
        simp only [List.length_drop, List.length_cons] at h ⊢
        omega)
      simp only [chunks20Go, List.length_cons]
      rw [hrec]
      simp only [List.length_drop, List.length_cons]
      omega

theorem exists_six_cons : ∀ t : List Nat, 6 ≤ t.length →
    ∃ b0 b1 b2 b3 b4 b5 rest, t = b0 :: b1 :: b2 :: b3 :: b4 :: b5 :: rest := by
  intro t h
  cases t with
  | nil => simp at h
  | cons b0 t =>
    cases t with
    | nil => simp at h
    | cons b1 t =>
      cases t with
      | nil => simp at h
      | cons b2 t =>
        cases t with
        | nil => simp at h
        | cons b3 t =>
          cases t with
          | nil => simp at h
          | cons b4 t =>
            cases t with
            | nil => simp at h
            | cons b5 t => exact ⟨b0, b1, b2, b3, b4, b5, t, rfl⟩

theorem chunksExact6_short (t : List Nat) (h : t.length < 6) : chunksExact6 t = [] := by
  rw [chunksExact6.eq_def]
  split
  · simp only [List.length_cons] at h
    omega
  · rfl

theorem chunksExact6_length (buf : List Nat) :
    (chunksExact6 buf).length = buf.length / 6 := by
  induction buf using chunksExact6.induct with
  | case1 b0 b1 b2 b3 b4 b5 rest ih =>
    simp only [chunksExact6, List.length_cons, ih]
    omega
  | case2 t hne =>
    have hlen : t.length < 6 := by
      by_contra hge
      obtain ⟨b0, b1, b2, b3, b4, b5, rest, rfl⟩ := exists_six_cons t (by omega)
      exact hne _ _ _ _ _ _ _ rfl
    rw [chunksExact6_short t hlen]
    simp
    omega

theorem chunksExact6_take (buf : List Nat) :
    chunksExact6 (buf.take (6 * (buf.length / 6))) = chunksExact6 buf := by
  induction buf using chunksExact6.induct with
  | case1 b0 b1 b2 b3 b4 b5 rest ih =>
    have h6 : (b0 :: b1 :: b2 :: b3 :: b4 :: b5 :: rest).length / 6
        = rest.length / 6 + 1 := by
      simp only [List.length_cons]
      omega
    rw [h6, show 6 * (rest.length / 6 + 1) = (6 * (rest.length / 6)) + 6 by ring]
    have htake : (b0 :: b1 :: b2 :: b3 :: b4 :: b5 :: rest).take
        ((6 * (rest.length / 6)) + 6)
        = b0 :: b1 :: b2 :: b3 :: b4 :: b5 :: (rest.take (6 * (rest.length / 6))) := rfl
    rw [htake]
    have hch1 : chunksExact6
        (b0 :: b1 :: b2 :: b3 :: b4 :: b5 :: (rest.take (6 * (rest.length / 6))))
        = [b0, b1, b2, b3, b4, b5] :: chunksExact6 (rest.take (6 * (rest.length / 6))) := rfl
    have hch2 : chunksExact6 (b0 :: b1 :: b2 :: b3 :: b4 :: b5 :: rest)
        = [b0, b1, b2, b3, b4, b5] :: chunksExact6 rest := rfl
    rw [hch1, hch2, ih]
  | case2 t hne =>
    have hlen : t.length < 6 := by
      by_contra hge
      obtain ⟨b0, b1, b2, b3, b4, b5, rest, rfl⟩ := exists_six_cons t (by omega)
      exact hne _ _ _ _ _ _ _ rfl
    have h0 : t.length / 6 = 0 := by omega
    rw [h0]
    simp [chunksExact6_short t hlen, chunksExact6]

theorem chunksExact6_getElem? : ∀ (i : Nat) (buf : List Nat), 6 * i + 6 ≤ buf.length →
    (chunksExact6 buf)[i]? = some ((buf.drop (6 * i)).take 6) := by
  intro i
  induction i with
  | zero =>
    intro buf h
    obtain ⟨b0, b1, b2, b3, b4, b5, rest, rfl⟩ := exists_six_cons buf (by omega)
    simp [chunksExact6]
  | succ i ih =>
    intro buf h
    obtain ⟨b0, b1, b2, b3, b4, b5, rest, rfl⟩ := exists_six_cons buf (by omega)
    have hlen : 6 * i + 6 ≤ rest.length := by
      simp only [List.length_cons] at h
      omega
    have hch : chunksExact6 (b0 :: b1 :: b2 :: b3 :: b4 :: b5 :: rest)
        = [b0, b1, b2, b3, b4, b5] :: chunksExact6 rest := rfl
    rw [hch, List.getElem?_cons_succ, ih rest hlen]
    rfl

theorem getD_drop_take (l : List Nat) (n k : Nat) (hk : k < 6) :
    ((l.drop n).take 6).getD k 0 = l.getD (n + k) 0 := by
  rw [List.getD_eq_getElem?_getD, List.getElem?_take, if_pos hk, List.getElem?_drop,
    ← List.getD_eq_getElem?_getD]

/-! ### Claim theorems: tracker peers and pieces -/

/-- C4 counterexample: a 21-byte `pieces` value (not a multiple of 20)
is accepted verbatim by `deserialize_pieces` instead of being rejected. -/
theorem c4_counterexample :
    deserialize_pieces (List.replicate 21 0) = .ok (List.replicate 21 0) ∧
    (List.replicate 21 0 : List Nat).length % 20 ≠ 0 :=
  ⟨rfl, by decide⟩

/-- C4 (amended): the parser performs no multiple-of-20 validation on
`pieces`: any byte length is accepted verbatim, and a length that is not a
multiple of 20 makes `pieces_hash` emit a final short chunk (one more chunk
than the number of complete 20-byte hashes) instead of raising an error. -/
theorem c4_amended_no_pieces_validation (b : List Nat) (h : b.length % 20 ≠ 0) :
    deserialize_pieces b = .ok b ∧
    (pieces_hash b).length = b.length / 20 + 1 := by
  refine ⟨rfl, ?_⟩
  have hc := chunks20Go_length b.length b le_rfl
  simp only [pieces_hash, chunks20, List.length_map]
  rw [hc]
  omega

/-- C4 witness: the 21-byte buffer is accepted and hashes to two chunks. -/
theorem c4_amended_witness :
    deserialize_pieces (List.replicate 21 0) = .ok (List.replicate 21 0) ∧
    (pieces_hash (List.replicate 21 0)).length
      = (List.replicate 21 0 : List Nat).length / 20 + 1 :=
  c4_amended_no_pieces_validation (List.replicate 21 0) (by decide)

/-- C5 counterexample: a 7-byte `peers` value (not a multiple of 6) yields
one peer with the trailing byte silently dropped, instead of an error. -/
theorem c5_counterexample :
    deserialize_peers (List.replicate 7 1) = .ok [⟨(1, 1, 1, 1), 257⟩] ∧
    (List.replicate 7 1 : List Nat).length % 6 ≠ 0 :=
  ⟨rfl, by decide⟩

/-- C5 (amended): for a `peers` byte string whose length is not a multiple
of 6, decoding does not fail: it returns `length / 6` peers, identical to
what the buffer truncated to its complete 6-byte records yields — the
trailing fragment is silently dropped. -/
theorem c5_amended_fragment_dropped (buf : List Nat) (h : buf.length % 6 ≠ 0) :
    ∃ ps, deserialize_peers buf = .ok ps ∧ ps.length = buf.length / 6 ∧
      deserialize_peers (buf.take (6 * (buf.length / 6))) = .ok ps := by
  refine ⟨(chunksExact6 buf).map peerOfChunk, rfl,
    by simp [chunksExact6_length], ?_⟩
  unfold deserialize_peers
  rw [chunksExact6_take]

/-- C5 witness: the 7-byte buffer yields one peer, equal to what its first
6 bytes yield. -/
theorem c5_amended_witness :
    ∃ ps, deserialize_peers (List.replicate 7 1) = .ok ps ∧
      ps.length = (List.replicate 7 1 : List Nat).length / 6 ∧
      deserialize_peers ((List.replicate 7 1 : List Nat).take
        (6 * ((List.replicate 7 1 : List Nat).length / 6))) = .ok ps :=
  c5_amended_fragment_dropped (List.replicate 7 1) (by decide)

/-- C6: a `peers` byte string whose length is a multiple of 6 decodes to
`length / 6` peers; peer `i` is built from the 6-byte record at offset
`6 * i` — bytes 0–3 are the IPv4 octets in order, bytes 4–5 the
big-endian port — and output order follows record order. -/
theorem c6_peers_compact_layout (buf : List Nat) (h : buf.length % 6 = 0) :
    ∃ ps, deserialize_peers buf = .ok ps ∧ ps.length = buf.length / 6 ∧
      ∀ i, i < buf.length / 6 →
        ps[i]? = some ⟨(buf.getD (6 * i) 0, buf.getD (6 * i + 1) 0,
          buf.getD (6 * i + 2) 0, buf.getD (6 * i + 3) 0),
          256 * buf.getD (6 * i + 4) 0 + buf.getD (6 * i + 5) 0⟩ := by
  refine ⟨(chunksExact6 buf).map peerOfChunk, rfl,
    by simp [chunksExact6_length], ?_⟩
  intro i hi
  have hle : 6 * i + 6 ≤ buf.length := by omega
  rw [List.getElem?_map, chunksExact6_getElem? i buf hle]
  simp only [Option.map_some']
  congr 1
  simp only [peerOfChunk]
  rw [getD_drop_take _ _ 0 (by omega), getD_drop_take _ _ 1 (by omega),
    getD_drop_take _ _ 2 (by omega), getD_drop_take _ _ 3 (by omega),
    getD_drop_take _ _ 4 (by omega), getD_drop_take _ _ 5 (by omega)]
  simp

/-- C6 witness: the 6-byte record `127.0.0.1 : 8080`. -/
theorem c6_peers_compact_layout_witness :
    ∃ ps, deserialize_peers [127, 0, 0, 1, 31, 144] = .ok ps ∧
      ps.length = ([127, 0, 0, 1, 31, 144] : List Nat).length / 6 ∧
      ∀ i, i < ([127, 0, 0, 1, 31, 144] : List Nat).length / 6 →
        ps[i]? = some ⟨(([127, 0, 0, 1, 31, 144] : List Nat).getD (6 * i) 0,
          ([127, 0, 0, 1, 31, 144] : List Nat).getD (6 * i + 1) 0,
          ([127, 0, 0, 1, 31, 144] : List Nat).getD (6 * i + 2) 0,
          ([127, 0, 0, 1, 31, 144] : List Nat).getD (6 * i + 3) 0),
          256 * ([127, 0, 0, 1, 31, 144] : List Nat).getD (6 * i + 4) 0 +
            ([127, 0, 0, 1, 31, 144] : List Nat).getD (6 * i + 5) 0⟩ :=
  c6_peers_compact_layout [127, 0, 0, 1, 31, 144] (by decide)

/-! ### Claim theorems: announce URL encoding -/

theorem urlencode_length (v : List Nat) :
    (urlencode_bytes v).length = 3 * v.length := by
  induction v with
  | nil => simp [urlencode_bytes]
  | cons b v ih =>
    have harr : urlencode_bytes (b :: v)
        = 37 :: hexDigit (b % 256 / 16) :: hexDigit (b % 16) :: urlencode_bytes v := by
      simp [urlencode_bytes]
    rw [harr]
    simp only [List.length_cons, ih]
    omega

theorem urlencode_slice : ∀ (v : List Nat) (i : Nat), i < v.length →
    ((urlencode_bytes v).drop (3 * i)).take 3
      = [37, hexDigit (v.getD i 0 % 256 / 16), hexDigit (v.getD i 0 % 16)] := by
  intro v
  induction v with
  | nil => intro i h; simp at h
  | cons b v ih =>
    intro i h
    cases i with
    | zero => simp [urlencode_bytes]
    | succ i =>
      have harr : urlencode_bytes (b :: v)
          = 37 :: hexDigit (b % 256 / 16) :: hexDigit (b % 16) :: urlencode_bytes v := by
        simp [urlencode_bytes]
      rw [harr, show 3 * (i + 1) = 3 * i + 1 + 1 + 1 by ring]
      simp only [List.drop_succ_cons]
      rw [ih i (by simp at h; omega)]
      simp

/-- C9: the URL encoding of a 20-byte info hash is exactly 60 characters,
with the bytes at offsets `3i, 3i+1, 3i+2` being `%` and the two lowercase
hex digits of input byte `i` — every byte is percent-encoded, ASCII
letters and digits included (the encoding is uniform in the byte value). -/
theorem c9_urlencode_every_byte (v : List Nat) (h : v.length = 20) :
    (urlencode_bytes v).length = 60 ∧
    ∀ i, i < 20 →
      ((urlencode_bytes v).drop (3 * i)).take 3
        = [37, hexDigit (v.getD i 0 % 256 / 16), hexDigit (v.getD i 0 % 16)] := by
  constructor
  · rw [urlencode_length, h]
  · intro i hi
    exact urlencode_slice v i (by omega)

/-- C9 witness: twenty `a` bytes (an ASCII letter, which a text-oriented
encoder would leave unescaped) are still percent-encoded, to 60 chars. -/
theorem c9_urlencode_every_byte_witness :
    (urlencode_bytes (List.replicate 20 97)).length = 60 ∧
    ∀ i, i < 20 →
      ((urlencode_bytes (List.replicate 20 97)).drop (3 * i)).take 3
        = [37, hexDigit ((List.replicate 20 97 : List Nat).getD i 0 % 256 / 16),
            hexDigit ((List.replicate 20 97 : List Nat).getD i 0 % 16)] :=
  c9_urlencode_every_byte (List.replicate 20 97) (by decide)

/-! ### Claim theorems: info re-encoding and the typed `Info` projection -/

/-- C1 counterexample: a canonical info dictionary (keys in ascending byte
order) containing the single extra key `"private"` deserializes into the
typed `Info` successfully, but re-encoding the typed value drops the extra
key, so the output is not byte-identical to the source encoding — the
info-hash computed from it would differ from every other client's. -/
theorem c1_counterexample :
    canonicalB (.bdict [(lengthKey, .bint 3), (nameKey, .bstr [97]),
      (pieceLengthKey, .bint 1), (piecesKey, .bstr (List.replicate 20 0)),
      ([112, 114, 105, 118, 97, 116, 101], .bint 1)]) = true ∧
    infoFromBenc (.bdict [(lengthKey, .bint 3), (nameKey, .bstr [97]),
      (pieceLengthKey, .bint 1), (piecesKey, .bstr (List.replicate 20 0)),
      ([112, 114, 105, 118, 97, 116, 101], .bint 1)])
      = some ⟨[97], 1, List.replicate 20 0, .singleFile 3⟩ ∧
    encoded_info ⟨[97], 1, List.replicate 20 0, .singleFile 3⟩
      ≠ encB (.bdict [(lengthKey, .bint 3), (nameKey, .bstr [97]),
        (pieceLengthKey, .bint 1), (piecesKey, .bstr (List.replicate 20 0)),
        ([112, 114, 105, 118, 97, 116, 101], .bint 1)]) :=
  ⟨rfl, rfl, by decide⟩

/-- C1 (amended): re-encoding the decoded `Info` is byte-identical to the
source only when the source info dictionary contains exactly the fields of
the typed struct (here the single-file shape: `length`, `name`,
`piece length`, `pieces`, in canonical order); a field not modeled by the
struct is dropped on re-encoding, so the general byte-identity claim fails
(see the counterexample). -/
theorem c1_amended_exact_fields_roundtrip (name pcs : List Nat) (pl len : Nat)
    (hname : utf8Valid name = true) :
    canonicalB (.bdict [(lengthKey, .bint (Int.ofNat len)), (nameKey, .bstr name),
      (pieceLengthKey, .bint (Int.ofNat pl)), (piecesKey, .bstr pcs)]) = true ∧
    infoFromBenc (.bdict [(lengthKey, .bint (Int.ofNat len)), (nameKey, .bstr name),
      (pieceLengthKey, .bint (Int.ofNat pl)), (piecesKey, .bstr pcs)])
      = some ⟨name, pl, pcs, .singleFile len⟩ ∧
    encoded_info ⟨name, pl, pcs, .singleFile len⟩
      = encB (.bdict [(lengthKey, .bint (Int.ofNat len)), (nameKey, .bstr name),
        (pieceLengthKey, .bint (Int.ofNat pl)), (piecesKey, .bstr pcs)]) := by
  refine ⟨rfl, ?_, rfl⟩
  simp [infoFromBenc, lookupKey, asString, asUsize, keysFromEntries,
    deserialize_pieces, Except.toOption, hname, lengthKey, nameKey,
    pieceLengthKey, piecesKey]

/-- C1 witness: a concrete single-file info dictionary with exactly the
modeled fields round-trips byte-identically. -/
theorem c1_amended_exact_fields_roundtrip_witness :
    canonicalB (.bdict [(lengthKey, .bint (Int.ofNat 3)), (nameKey, .bstr [97]),
      (pieceLengthKey, .bint (Int.ofNat 1)), (piecesKey, .bstr (List.replicate 20 0))]) = true ∧
    infoFromBenc (.bdict [(lengthKey, .bint (Int.ofNat 3)), (nameKey, .bstr [97]),
      (pieceLengthKey, .bint (Int.ofNat 1)), (piecesKey, .bstr (List.replicate 20 0))])
      = some ⟨[97], 1, List.replicate 20 0, .singleFile 3⟩ ∧
    encoded_info ⟨[97], 1, List.replicate 20 0, .singleFile 3⟩
      = encB (.bdict [(lengthKey, .bint (Int.ofNat 3)), (nameKey, .bstr [97]),
        (pieceLengthKey, .bint (Int.ofNat 1)), (piecesKey, .bstr (List.replicate 20 0))]) :=
  c1_amended_exact_fields_roundtrip [97] (List.replicate 20 0) 1 3 (by decide)
